import Mathlib


/-
Verification of the Merklith PoC consensus specification against the
repository sources.  Pure functions of the repository (the TypeScript SDK
unit-conversion helpers, the documented proposer and committee selection
routines) are embedded directly; components whose implementation is not
shipped in the repository (finality gadget, scorer, aggregator, slashing)
are modelled from the specification text, as marked in each doc comment.
-/

/- ===================== SDK unit conversion (src/unnamed/part_009) ========

Decimal strings are embedded as lists of decimal digits, most significant
digit first.  The pair returned by formatUnits models the two sides of the
"." in the produced string; an absent fractional part is the empty list. -/

/-- Decimal digits of a natural number, most significant first, as produced
by the JavaScript BigInt toString conversion (so the digits of 0 are [0]). -/
def toDigits (n : Nat) : List Nat :=
  if h : n < 10 then [n]
  else toDigits (n / 10) ++ [n % 10]
decreasing_by exact Nat.div_lt_self (by omega) (by omega)

/-- Numeric value of a digit list, as computed by the JavaScript BigInt
constructor on the corresponding decimal string. -/
def ofDigits (ds : List Nat) : Nat :=
  ds.foldl (fun a d => 10 * a + d) 0

/-- Embedding of String.prototype.padStart with the pad character 0: left-pad
the digit list to length k (no truncation when already at least k long). -/
def padStart (ds : List Nat) (k : Nat) : List Nat :=
  List.replicate (k - ds.length) 0 ++ ds

/-- Embedding of String.prototype.padEnd with the pad character 0: right-pad
the digit list to length k. -/
def padEnd (ds : List Nat) (k : Nat) : List Nat :=
  ds ++ List.replicate (k - ds.length) 0

/-- Embedding of the regular-expression replacement replace(/0+$/, ""):
remove every trailing zero digit. -/
def trimTrailingZeros (ds : List Nat) : List Nat :=
  (ds.reverse.dropWhile (fun d => d == 0)).reverse

/-- Embedding of formatUnits from the SDK utilities: split value into the
integer part (value / 10^decimals) and the fractional remainder, left-pad the
remainder digits to the full width, then trim trailing zeros.  The result
models the produced string as (integer digits, fractional digits). -/
def formatUnits (value : Nat) (decimals : Nat) : List Nat × List Nat :=
  let divisor := 10 ^ decimals
  let integer := value / divisor
  let fraction := value % divisor
  let fractionStr := padStart (toDigits fraction) decimals
  let trimmedFraction := trimTrailingZeros fractionStr
  (toDigits integer, trimmedFraction)

/-- Embedding of parseUnits from the SDK utilities: right-pad the fractional
digits to the full width and read the concatenation as one decimal number.
The two digit-list arguments model the two sides of the "." split. -/
def parseUnits (integer : List Nat) (fraction : List Nat) (decimals : Nat) : Nat :=
  ofDigits (integer ++ padEnd fraction decimals)

/- ============== Proposer and committee selection (src/unnamed/part_004,
src/docs/advanced/ARCHITECTURE_DEEP_DIVE.md section 1.2) ================= -/

/-- Loop body of select_proposer: walk the score list accumulating the
cumulative score and return the first index whose cumulative score reaches
the target; the Rust loop falls through to return 0 when no index does. -/
def selectProposerGo : List Nat → Nat → Nat → Nat → Option Nat
  | [], _, _, _ => some 0
  | s :: rest, target, cumulative, i =>
      if target ≤ cumulative + s then some i
      else selectProposerGo rest target (cumulative + s) (i + 1)

/-- Embedding of select_proposer from the architecture document: sum all
total scores, reduce the seed-derived random to a target by modulo, and scan
for the first validator whose cumulative score reaches the target.  In Rust
the expression random % total panics when total is zero; the panic is
modelled by returning none. -/
def select_proposer (scores : List Nat) (random : Nat) : Option Nat :=
  let total := scores.sum
  if total = 0 then none
  else selectProposerGo scores (random % total) 0 0

/-- Sort key of a committee candidate, given as the pair (vrf random output,
total score): the documented selection score vrf_random / total_score, taken
as an exact rational. -/
def sort_key (c : Nat × Nat) : ℚ :=
  (c.1 : ℚ) / (c.2 : ℚ)

/-- Embedding of select_committee from the deep-dive document: compute each
candidate sort key, sort ascending (stable sort, as in Python), and keep the
first target_size candidates. -/
def select_committee (validators : List (Nat × Nat)) (target_size : Nat) :
    List (Nat × Nat) :=
  (validators.mergeSort fun a b => decide (sort_key a ≤ sort_key b)).take target_size

/-- Written from the claim text, for comparison with select_proposer: the
proposer is the candidate with the minimal sort key (scanning left to right,
keeping the earliest minimum), given each candidate as (vrf random, score). -/
def specMinSortKeyGo : List (Nat × Nat) → ℚ → Nat → Nat → Nat
  | [], _, besti, _ => besti
  | c :: rest, bestk, besti, i =>
      if sort_key c < bestk then specMinSortKeyGo rest (sort_key c) i (i + 1)
      else specMinSortKeyGo rest bestk besti (i + 1)

/-- Written from the claim text: index of the minimal-sort-key candidate. -/
def specMinSortKeyProposer : List (Nat × Nat) → Option Nat
  | [] => none
  | c :: rest => some (specMinSortKeyGo rest (sort_key c) 0 1)

/-- Cumulative score of the first n validators, matching the cumulative
variable of the select_proposer loop. -/
def prefixScore (scores : List Nat) (n : Nat) : Nat :=
  (scores.take n).sum

/- ===================== Contribution scorer (spec section 4.1) =========== -/

/-- Normalized score components of one validator.  Each component is a
fixed-point fraction: a natural number of scale units. -/
structure ScoreComponents where
  stake_norm : Nat
  attestation_norm : Nat
  production_norm : Nat
  relay_norm : Nat
deriving DecidableEq

/-- Modelled from the spec: the Contribution Scorer is not shipped in the
repository sources, only documented.  Total score with the component weights
0.4 / 0.3 / 0.2 / 0.1 for stake, attestation, production and relay, in
deterministic fixed-point arithmetic: the weights are carried as the
integers 4, 3, 2, 1 over the common denominator 10, so the total is an
exact natural number at ten times the component scale. -/
def total_score (c : ScoreComponents) : Nat :=
  4 * c.stake_norm + 3 * c.attestation_norm + 2 * c.production_norm + 1 * c.relay_norm

/-- Modelled from the spec: one decay interval multiplies a component by the
decay factor 0.9, in fixed point (multiply by 9, divide by 10, floor). -/
def decay_step (x : Nat) : Nat :=
  x * 9 / 10

/-- Modelled from the spec: D consecutive decay intervals with no qualifying
event apply the decay step D times. -/
def decay_iter (x : Nat) : Nat → Nat
  | 0 => x
  | D + 1 => decay_iter (decay_step x) D

/-- Modelled from the spec: recomputed total score of a validator that has
been silent for D decay intervals; the activity components decay while the
stake component is unchanged (spec Scenario B). -/
def silent_score (c : ScoreComponents) (D : Nat) : Nat :=
  total_score
    { stake_norm := c.stake_norm
      attestation_norm := decay_iter c.attestation_norm D
      production_norm := decay_iter c.production_norm D
      relay_norm := decay_iter c.relay_norm D }

/- ===================== Attestation aggregator (spec section 4.3) ======== -/

/-- AttestationMessage from the external-interface section: validator id,
slot, source checkpoint, target checkpoint, signature.  Checkpoints and
signatures are content-addressed and abstracted as numbers. -/
structure AttestationMessage where
  validator : Nat
  slot : Nat
  source_checkpoint : Nat
  target_checkpoint : Nat
  signature : Nat
deriving DecidableEq

/-- Modelled from the spec: the aggregator groups attestations by the exact
(slot, source, target) tuple and keeps, per group, a participation bitfield
(set of included validators) and an aggregated signature.  Elliptic-curve
point addition of compatible signatures is modelled by addition in a
commutative monoid, here Nat. -/
structure AggregatorState where
  participation : Nat × Nat × Nat → Finset Nat
  aggregate_signature : Nat × Nat × Nat → Nat

/-- Grouping key of an attestation message: the exact (slot, source
checkpoint, target checkpoint) tuple. -/
def att_key (m : AttestationMessage) : Nat × Nat × Nat :=
  (m.slot, m.source_checkpoint, m.target_checkpoint)

/-- Modelled from the spec: applying one attestation message.  A message
whose validator is already recorded in the participation bitfield of its
group is deduplicated (state unchanged); otherwise the validator is added
to the bitfield and the signature is point-added into the aggregate. -/
def apply_attestation (st : AggregatorState) (m : AttestationMessage) :
    AggregatorState :=
  if m.validator ∈ st.participation (att_key m) then st
  else
    { participation := fun k =>
        if k = att_key m then insert m.validator (st.participation k)
        else st.participation k
      aggregate_signature := fun k =>
        if k = att_key m then st.aggregate_signature k + m.signature
        else st.aggregate_signature k }

/- ===================== Slashing and accountability (spec section 4.5) === -/

/-- Validator status from the data model. -/
inductive ValidatorStatus where
  | Active
  | Exiting
  | Slashed
  | Inactive
deriving DecidableEq

/-- Registry record of a validator: status, stake and contribution score. -/
structure ValidatorRec where
  status : ValidatorStatus
  stake : Nat
  score : Nat
deriving DecidableEq

/-- Signed-block artifact of double-sign evidence: the signing validator,
the slot, and the hash of the signed block.  The signature itself is
abstracted: a well-formed artifact stands for a verified signature of the
named validator over (slot, block hash). -/
structure SignedBlock where
  signer : Nat
  slot : Nat
  block_hash : Nat
deriving DecidableEq

/-- Modelled from the spec: double-sign evidence against validator v is
valid when both artifacts are signed by v, for the same slot, with two
distinct block hashes. -/
def valid_double_sign (v : Nat) (a b : SignedBlock) : Bool :=
  a.signer == v && b.signer == v && a.slot == b.slot && a.block_hash != b.block_hash

/-- Modelled from the spec: applying double-sign evidence to the registry
record of validator v.  Evidence that fails verification is rejected with
no state change (none).  Valid evidence against an already-Slashed
validator succeeds as a no-op.  Otherwise the validator transitions to
Slashed, forfeits the full stake, and loses the contribution score. -/
def apply_double_sign_evidence (val : ValidatorRec) (v : Nat) (a b : SignedBlock) :
    Option ValidatorRec :=
  if valid_double_sign v a b = false then none
  else if val.status = ValidatorStatus.Slashed then some val
  else some { status := ValidatorStatus.Slashed, stake := 0, score := 0 }

/- ===================== Finality gadget (spec section 4.4) ===============

Modelled from the spec: the finality gadget implementation is not shipped in
the repository; the model follows the data model of section 3 (checkpoints
referenced by hash, justified and finalized flags, attested-stake weight)
and the state machine of section 4.4: Pending to Justified when attested
stake reaches 2/3 of total active stake, Justified to Finalized when the
checkpoint is justified and justifies a justified checkpoint of the
immediately preceding epoch (the chain rule). -/

/-- Checkpoint: a block at an epoch boundary, content-addressed by hash. -/
structure Checkpoint where
  epoch : Nat
  block_hash : Nat
deriving DecidableEq

/-- One verified attestation reaching the gadget: attesting validator,
source checkpoint and target checkpoint. -/
structure AttestationEvent where
  validator : Nat
  source : Checkpoint
  target : Checkpoint
deriving DecidableEq

/-- Registry snapshot consumed by the gadget: the active validator set and
the stake of each validator. -/
structure FinalityConfig where
  activeSet : Finset Nat
  stake : Nat → Nat

/-- Total active stake of the registry snapshot. -/
def totalActiveStake (cfg : FinalityConfig) : Nat :=
  ∑ v ∈ cfg.activeSet, cfg.stake v

/-- Gadget state: per-checkpoint attesting validators (the attested-stake
weight is their summed stake), per-link attesting validators, the justified
and finalized marks, and the checkpoints seen so far. -/
structure GadgetState where
  voters : Checkpoint → Finset Nat
  link_voters : Checkpoint → Checkpoint → Finset Nat
  just : Checkpoint → Bool
  fin : Checkpoint → Bool
  seen : List Checkpoint

/-- Attested-stake weight recorded for a checkpoint. -/
def attested_stake (cfg : FinalityConfig) (st : GadgetState) (c : Checkpoint) : Nat :=
  ∑ v ∈ st.voters c, cfg.stake v

/-- Stake attesting to the link from source c to target d. -/
def link_stake (cfg : FinalityConfig) (st : GadgetState) (c d : Checkpoint) : Nat :=
  ∑ v ∈ st.link_voters c d, cfg.stake v

/-- Checkpoint c justifies checkpoint d when the stake attesting the link
from c to d reaches 2/3 of total active stake. -/
def justifies (cfg : FinalityConfig) (st : GadgetState) (c d : Checkpoint) : Bool :=
  decide (2 * totalActiveStake cfg ≤ 3 * link_stake cfg st c d)

/-- Initial gadget state: no attestations, no marks, no checkpoints. -/
def gadget_init : GadgetState :=
  { voters := fun _ => ∅
    link_voters := fun _ _ => ∅
    just := fun _ => false
    fin := fun _ => false
    seen := [] }

/-- Modelled from the spec: processing one attestation.  The validator is
recorded for the target checkpoint and for the source-to-target link; the
justified mark of a checkpoint is set once its attested stake reaches 2/3 of
total active stake; the finalized mark is set once the checkpoint is
justified and justifies a justified checkpoint of the immediately preceding
epoch. -/
def gadget_step (cfg : FinalityConfig) (st : GadgetState) (a : AttestationEvent) :
    GadgetState :=
  let voters1 : Checkpoint → Finset Nat := fun c =>
    if c = a.target then insert a.validator (st.voters c) else st.voters c
  let link1 : Checkpoint → Checkpoint → Finset Nat := fun c d =>
    if c = a.source ∧ d = a.target then insert a.validator (st.link_voters c d)
    else st.link_voters c d
  let seen1 : List Checkpoint := a.target :: a.source :: st.seen
  let just1 : Checkpoint → Bool := fun c =>
    st.just c || decide (2 * totalActiveStake cfg ≤ 3 * ∑ v ∈ voters1 c, cfg.stake v)
  let fin1 : Checkpoint → Bool := fun c =>
    st.fin c ||
      (just1 c && seen1.any fun d =>
        decide (2 * totalActiveStake cfg ≤ 3 * ∑ v ∈ link1 c d, cfg.stake v) &&
        just1 d && decide (d.epoch + 1 = c.epoch))
  { voters := voters1
    link_voters := link1
    just := just1
    fin := fin1
    seen := seen1 }

/-- Run of the gadget over a stream of verified attestations. -/
def gadget_run (cfg : FinalityConfig) (es : List AttestationEvent) : GadgetState :=
  es.foldl (gadget_step cfg) gadget_init

/-- Inductive invariant of the gadget: the justified mark tracks the 2/3
attested-stake threshold, a recorded link implies the target checkpoint was
seen, and the finalized mark tracks the chain rule. -/
def GadgetInv (cfg : FinalityConfig) (st : GadgetState) : Prop :=
  (∀ c, st.just c = true ↔ 2 * totalActiveStake cfg ≤ 3 * attested_stake cfg st c) ∧
  (∀ c d, st.link_voters c d ≠ ∅ → d ∈ st.seen) ∧
  (∀ c, st.fin c = true ↔
    (st.just c = true ∧ ∃ d, justifies cfg st c d = true ∧ st.just d = true ∧
      d.epoch + 1 = c.epoch))

/-- Concrete registry snapshot for the witnesses: one validator of stake 1. -/
def cfg1 : FinalityConfig := { activeSet := {0}, stake := fun _ => 1 }

/-- Epoch-0 checkpoint used by the witnesses. -/
def cpD : Checkpoint := { epoch := 0, block_hash := 0 }

/-- First epoch-1 checkpoint used by the witnesses. -/
def cpA : Checkpoint := { epoch := 1, block_hash := 1 }

/-- Conflicting epoch-1 checkpoint used by the witnesses. -/
def cpB : Checkpoint := { epoch := 1, block_hash := 2 }

/-- Witness run: justify cpD with links from cpA and cpB, then justify cpA
and cpB with links from cpD, finalizing both conflicting checkpoints. -/
def esW : List AttestationEvent :=
  [{ validator := 0, source := cpA, target := cpD },
   { validator := 0, source := cpD, target := cpA },
   { validator := 0, source := cpB, target := cpD },
   { validator := 0, source := cpD, target := cpB }]

theorem ofDigits_foldl_init (a : Nat) (ds : List Nat) :
    ds.foldl (fun x d => 10 * x + d) a = a * 10 ^ ds.length + ofDigits ds := by
  induction ds generalizing a with
  | nil => simp [ofDigits]
  | cons d ds ih =>
      have h2 : ofDigits (d :: ds) = d * 10 ^ ds.length + ofDigits ds := by
        show List.foldl (fun x e => 10 * x + e) 0 (d :: ds) = _
        rw [List.foldl_cons, ih (10 * 0 + d)]
        ring
      simp only [List.foldl_cons, List.length_cons]
      rw [ih (10 * a + d), h2]
      ring

theorem ofDigits_append (xs ys : List Nat) :
    ofDigits (xs ++ ys) = ofDigits xs * 10 ^ ys.length + ofDigits ys := by
  unfold ofDigits
  rw [List.foldl_append, ofDigits_foldl_init]
  rfl

theorem ofDigits_replicate_zero (k : Nat) : ofDigits (List.replicate k 0) = 0 := by
  induction k with
  | zero => rfl
  | succ n ih =>
      have h : List.replicate (n + 1) 0 = List.replicate n 0 ++ [0] := by
        rw [List.replicate_succ']
      rw [h, ofDigits_append, ih]
      rfl

theorem ofDigits_toDigits (n : Nat) : ofDigits (toDigits n) = n := by
  induction n using Nat.strong_induction_on with
  | _ n ih =>
      rw [toDigits]
      split
      · simp [ofDigits]
      · rename_i h
        rw [ofDigits_append]
        have hd : ofDigits (toDigits (n / 10)) = n / 10 :=
          ih (n / 10) (Nat.div_lt_self (by omega) (by omega))
        have hm : ofDigits [n % 10] = n % 10 := by simp [ofDigits]
        rw [hd, hm]
        simp only [List.length_singleton, pow_one]
        omega

theorem toDigits_length_le (n d : Nat) (hd : 1 ≤ d) (hn : n < 10 ^ d) :
    (toDigits n).length ≤ d := by
  induction n using Nat.strong_induction_on generalizing d with
  | _ n ih =>
      rw [toDigits]
      split
      · simpa using hd
      · rename_i h
        have hd2 : 2 ≤ d := by
          by_contra hlt
          have : d = 1 := by omega
          subst this
          simp at hn
          omega
        have hq : n / 10 < 10 ^ (d - 1) := by
          rw [Nat.div_lt_iff_lt_mul (by omega)]
          have : 10 ^ (d - 1) * 10 = 10 ^ d := by
            rw [← pow_succ]
            congr 1
            omega
          omega
        have := ih (n / 10) (Nat.div_lt_self (by omega) (by omega)) (d - 1) (by omega) hq
        simp only [List.length_append, List.length_singleton]
        omega

theorem trimTrailingZeros_pad (ds : List Nat) :
    trimTrailingZeros ds ++
      List.replicate (ds.length - (trimTrailingZeros ds).length) 0 = ds := by
  unfold trimTrailingZeros
  set tw := List.takeWhile (fun d : Nat => d == 0) ds.reverse with htw
  set dw := List.dropWhile (fun d : Nat => d == 0) ds.reverse with hdw
  have hsplit : tw ++ dw = ds.reverse := List.takeWhile_append_dropWhile _ _
  have hzeros : tw = List.replicate tw.length 0 := by
    apply List.eq_replicate_of_mem
    intro b hb
    rw [htw] at hb
    have := List.mem_takeWhile_imp hb
    simpa using this
  have hlen : tw.length + dw.length = ds.length := by
    have := congrArg List.length hsplit
    simpa using this
  have htwr : tw.reverse = List.replicate tw.length 0 := by
    conv_lhs => rw [hzeros]
    simp
  have hlen2 : ds.length - dw.reverse.length = tw.length := by
    simp only [List.length_reverse]
    omega
  calc dw.reverse ++ List.replicate (ds.length - dw.reverse.length) 0
      = dw.reverse ++ List.replicate tw.length 0 := by rw [hlen2]
    _ = dw.reverse ++ tw.reverse := by rw [htwr]
    _ = (tw ++ dw).reverse := (List.reverse_append tw dw).symm
    _ = ds := by rw [hsplit, List.reverse_reverse]

/-- Claim C10 (implicit SDK round-trip): for every non-negative value and every
decimal count, parseUnits inverts formatUnits exactly; trimming trailing
zeros of the fractional part loses no precision because parseUnits re-pads
the fractional digits to the full width. -/
theorem parseUnits_formatUnits_roundtrip (v d : Nat) :
    parseUnits (formatUnits v d).1 (formatUnits v d).2 d = v := by
  unfold formatUnits parseUnits
  simp only
  rcases Nat.eq_zero_or_pos d with hd | hd
  · subst hd
    simp only [pow_zero, Nat.div_one, Nat.mod_one]
    have h0 : toDigits 0 = [0] := by rw [toDigits]; norm_num
    have hpad : padStart (toDigits 0) 0 = [0] := by
      rw [h0]; unfold padStart; simp
    have htrim2 : trimTrailingZeros [0] = [] := by
      unfold trimTrailingZeros
      simp [List.dropWhile]
    rw [hpad, htrim2]
    have : padEnd [] 0 = [] := by unfold padEnd; simp
    rw [this, List.append_nil, ofDigits_toDigits]
  · set m := v % 10 ^ d with hm
    set q := v / 10 ^ d with hq
    set X := padStart (toDigits m) d with hX
    have hmlt : m < 10 ^ d := Nat.mod_lt _ (by positivity)
    have hlen : (toDigits m).length ≤ d := toDigits_length_le m d hd hmlt
    have hXlen : X.length = d := by
      rw [hX]; unfold padStart
      simp only [List.length_append, List.length_replicate]
      omega
    have hXval : ofDigits X = m := by
      rw [hX]; unfold padStart
      rw [ofDigits_append, ofDigits_replicate_zero, ofDigits_toDigits]
      simp
    have hpadEnd : padEnd (trimTrailingZeros X) d = X := by
      unfold padEnd
      rw [← hXlen]
      exact trimTrailingZeros_pad X
    rw [hpadEnd, ofDigits_append, ofDigits_toDigits, hXval, hXlen]
    rw [hq, hm]
    exact Nat.div_add_mod' v (10 ^ d)

theorem selectProposerGo_spec (scores : List Nat) (target cumulative i : Nat)
    (h : target ≤ cumulative + scores.sum) (hne : scores ≠ []) :
    ∃ k, selectProposerGo scores target cumulative i = some (i + k) ∧
      k < scores.length ∧
      target ≤ cumulative + prefixScore scores (k + 1) ∧
      ∀ j < k, cumulative + prefixScore scores (j + 1) < target := by
  induction scores generalizing cumulative i with
  | nil => exact absurd rfl hne
  | cons s rest ih =>
      by_cases hcross : target ≤ cumulative + s
      · refine ⟨0, ?_, by simp, ?_, by omega⟩
        · simp [selectProposerGo, hcross]
        · simpa [prefixScore] using hcross
      · have hrest : rest ≠ [] := by
          intro hempty
          subst hempty
          simp at h
          omega
        have hsum : target ≤ cumulative + s + rest.sum := by
          simp at h
          omega
        obtain ⟨k1, hgo, hk1, hth, hlt⟩ := ih (cumulative + s) (i + 1) hsum hrest
        refine ⟨k1 + 1, ?_, by simpa using Nat.add_lt_add_right hk1 1, ?_, ?_⟩
        · rw [show i + (k1 + 1) = i + 1 + k1 by omega] at *
          simpa [selectProposerGo, hcross] using hgo
        · have : prefixScore (s :: rest) (k1 + 1 + 1) = s + prefixScore rest (k1 + 1) := by
            simp [prefixScore]
          omega
        · intro j hj
          match j with
          | 0 =>
              have : prefixScore (s :: rest) (0 + 1) = s := by simp [prefixScore]
              omega
          | j + 1 =>
              have hj1 : j < k1 := by omega
              have := hlt j hj1
              have hpre : prefixScore (s :: rest) (j + 1 + 1) = s + prefixScore rest (j + 1) := by
                simp [prefixScore]
              omega

theorem sortKeyLe_trans (a b c : Nat × Nat)
    (hab : decide (sort_key a ≤ sort_key b) = true)
    (hbc : decide (sort_key b ≤ sort_key c) = true) :
    decide (sort_key a ≤ sort_key c) = true := by
  simp only [decide_eq_true_eq] at *
  exact le_trans hab hbc

theorem sortKeyLe_total (a b : Nat × Nat) :
    (decide (sort_key a ≤ sort_key b) || decide (sort_key b ≤ sort_key a)) = true := by
  simp only [Bool.or_eq_true, decide_eq_true_eq]
  exact le_total _ _

/-- Claim C4 counterexample: the documented select_proposer code is a
score-weighted roulette over a single seed-derived random and does not pick
the minimal-sort-key validator.  With two validators of equal score 1, vrf
outputs 5 and 0 (so the second validator has the strictly smaller sort key)
and seed random 0, the code selects index 0 while the claim demands the
minimal-sort-key index 1. -/
theorem select_proposer_not_min_sort_key :
    select_proposer [1, 1] 0 = some 0 ∧
      specMinSortKeyProposer [(5, 1), (0, 1)] = some 1 ∧
      select_proposer [1, 1] 0 ≠ specMinSortKeyProposer [(5, 1), (0, 1)] := by
  have h1 : select_proposer [1, 1] 0 = some 0 := by decide
  have hlt : sort_key (0, 1) < sort_key (5, 1) := by
    unfold sort_key
    norm_num
  have h2 : specMinSortKeyProposer [(5, 1), (0, 1)] = some 1 := by
    unfold specMinSortKeyProposer
    simp [specMinSortKeyGo, hlt]
  refine ⟨h1, h2, ?_⟩
  rw [h1, h2]
  simp

/-- Claim C4 as amended: for every candidate list (vrf output, score per validator)
with a nonzero total score, the proposer returned by select_proposer is the
first validator index whose cumulative score reaches the seed random reduced
modulo the total score (score-weighted roulette), and the committee returned
by select_committee consists of target_size validators of minimal sort key:
together with the dropped suffix of the sorted order it is a permutation of
the candidates, and every committee member has a sort key at most that of
every dropped candidate. -/
theorem select_proposer_roulette_and_committee_sorted
    (cands : List (Nat × Nat)) (random target_size : Nat)
    (htotal : (cands.map Prod.snd).sum ≠ 0) :
    (∃ i, select_proposer (cands.map Prod.snd) random = some i ∧
       i < cands.length ∧
       random % (cands.map Prod.snd).sum ≤ prefixScore (cands.map Prod.snd) (i + 1) ∧
       ∀ j < i, prefixScore (cands.map Prod.snd) (j + 1) <
         random % (cands.map Prod.snd).sum) ∧
    (select_committee cands target_size ++
       (cands.mergeSort fun a b => decide (sort_key a ≤ sort_key b)).drop target_size).Perm
      cands ∧
    (∀ x ∈ select_committee cands target_size,
       ∀ y ∈ (cands.mergeSort fun a b => decide (sort_key a ≤ sort_key b)).drop target_size,
         sort_key x ≤ sort_key y) := by
  set scores := cands.map Prod.snd with hscores
  have hlen : scores.length = cands.length := by simp [hscores]
  refine ⟨?_, ?_, ?_⟩
  · have hne : scores ≠ [] := by
      intro hempty
      rw [hempty] at htotal
      simp at htotal
    have hpos : 0 < scores.sum := Nat.pos_of_ne_zero htotal
    have htlt : random % scores.sum < scores.sum := Nat.mod_lt _ hpos
    obtain ⟨k, hgo, hk, hth, hlt⟩ :=
      selectProposerGo_spec scores (random % scores.sum) 0 0 (by omega) hne
    refine ⟨k, ?_, by omega, by simpa using hth, ?_⟩
    · unfold select_proposer
      rw [if_neg htotal]
      simpa using hgo
    · intro j hj
      have := hlt j hj
      omega
  · unfold select_committee
    rw [List.take_append_drop]
    exact List.mergeSort_perm cands _
  · intro x hx y hy
    have hpair := List.sorted_mergeSort sortKeyLe_trans sortKeyLe_total cands
    rw [← List.take_append_drop target_size
      (cands.mergeSort fun a b => decide (sort_key a ≤ sort_key b))] at hpair
    have hcross := (List.pairwise_append.mp hpair).2.2
    have := hcross x (by simpa [select_committee] using hx) y hy
    simpa using this

/-- Claim C4 amended witness at a concrete input: two candidates with scores 2 and
3, seed random 7, committee size 1. -/
theorem select_proposer_roulette_and_committee_sorted_witness :
    (([(5, 2), (1, 3)] : List (Nat × Nat)).map Prod.snd).sum ≠ 0 ∧
      ((∃ i, select_proposer (([(5, 2), (1, 3)] : List (Nat × Nat)).map Prod.snd) 7 = some i ∧
         i < ([(5, 2), (1, 3)] : List (Nat × Nat)).length ∧
         7 % (([(5, 2), (1, 3)] : List (Nat × Nat)).map Prod.snd).sum ≤
           prefixScore (([(5, 2), (1, 3)] : List (Nat × Nat)).map Prod.snd) (i + 1) ∧
         ∀ j < i, prefixScore (([(5, 2), (1, 3)] : List (Nat × Nat)).map Prod.snd) (j + 1) <
           7 % (([(5, 2), (1, 3)] : List (Nat × Nat)).map Prod.snd).sum) ∧
      (select_committee [(5, 2), (1, 3)] 1 ++
         (([(5, 2), (1, 3)] : List (Nat × Nat)).mergeSort
           fun a b => decide (sort_key a ≤ sort_key b)).drop 1).Perm [(5, 2), (1, 3)] ∧
      (∀ x ∈ select_committee [(5, 2), (1, 3)] 1,
         ∀ y ∈ (([(5, 2), (1, 3)] : List (Nat × Nat)).mergeSort
           fun a b => decide (sort_key a ≤ sort_key b)).drop 1,
           sort_key x ≤ sort_key y)) :=
  ⟨by decide,
   select_proposer_roulette_and_committee_sorted [(5, 2), (1, 3)] 7 1 (by decide)⟩

/-- Claim C5 evidence of the code bug: the specification requires a uniform
fallback when the total network score is zero, but the documented
select_proposer computes random % total with total equal to zero, which
panics in Rust (modelled as none): no validator is returned and no uniform
fallback exists in the code. -/
theorem select_proposer_zero_total_faults :
    ∀ random : Nat, select_proposer [0, 0, 0] random = none := fun _ => rfl

/-- Claim C6: the fixed-point total equals the exact weighted sum
0.4 stake + 0.3 attestation + 0.2 production + 0.1 relay of the normalized
components; the computation lives in Nat (never floating point), so two runs
on the same inputs are bit-identical, and each weight enters exactly once. -/
theorem total_score_fixed_point_exact (c : ScoreComponents) :
    (total_score c : ℚ) / 10 =
      (4 / 10) * c.stake_norm + (3 / 10) * c.attestation_norm +
        (2 / 10) * c.production_norm + (1 / 10) * c.relay_norm := by
  unfold total_score
  push_cast
  ring

theorem decay_step_le (x : Nat) : decay_step x ≤ x := by
  unfold decay_step
  calc x * 9 / 10 ≤ x * 10 / 10 := Nat.div_le_div_right (by omega)
    _ = x := Nat.mul_div_cancel x (by omega)

theorem decay_iter_shift (x : Nat) (D : Nat) :
    decay_iter x (D + 1) = decay_step (decay_iter x D) := by
  induction D generalizing x with
  | zero => rfl
  | succ n ih =>
      show decay_iter (decay_step x) (n + 1) = _
      rw [ih (decay_step x)]
      rfl

theorem decay_iter_antitone (x D : Nat) : decay_iter x (D + 1) ≤ decay_iter x D := by
  rw [decay_iter_shift]
  exact decay_step_le _

theorem decay_iter_eq_zero (x D : Nat) (h : x ≤ D) : decay_iter x D = 0 := by
  induction D generalizing x with
  | zero =>
      have : x = 0 := by omega
      simp [this, decay_iter]
  | succ n ih =>
      show decay_iter (decay_step x) n = 0
      apply ih
      rcases Nat.eq_zero_or_pos x with hx | hx
      · simp [hx, decay_step]
      · have : decay_step x < x := by
          unfold decay_step
          rw [Nat.div_lt_iff_lt_mul (by omega)]
          omega
        omega

/-- Claim C7: a validator silent over consecutive decay intervals has a
non-increasing recomputed total score, and after at most as many intervals
as the sum of its activity components the score equals exactly the
stake-only component 4 * stake_norm (0.4 of stake at the fixed-point scale):
the activity components have decayed to zero while the stake component is
untouched by the decay. -/
theorem silent_score_monotone_convergent (c : ScoreComponents) (D E : Nat) :
    silent_score c (D + 1) ≤ silent_score c D ∧
      silent_score c (c.attestation_norm + c.production_norm + c.relay_norm + E) =
        4 * c.stake_norm := by
  constructor
  · unfold silent_score total_score
    simp only
    have h1 := decay_iter_antitone c.attestation_norm D
    have h2 := decay_iter_antitone c.production_norm D
    have h3 := decay_iter_antitone c.relay_norm D
    omega
  · unfold silent_score total_score
    simp only
    have h1 := decay_iter_eq_zero c.attestation_norm
      (c.attestation_norm + c.production_norm + c.relay_norm + E) (by omega)
    have h2 := decay_iter_eq_zero c.production_norm
      (c.attestation_norm + c.production_norm + c.relay_norm + E) (by omega)
    have h3 := decay_iter_eq_zero c.relay_norm
      (c.attestation_norm + c.production_norm + c.relay_norm + E) (by omega)
    omega

/-- Claim C8: applying the same AttestationMessage twice leaves the aggregate
state (participation bitfields and aggregated signatures) identical to
applying it once; the duplicate is deduplicated, not point-added again. -/
theorem apply_attestation_idempotent (st : AggregatorState) (m : AttestationMessage) :
    apply_attestation (apply_attestation st m) m = apply_attestation st m := by
  have key : ∀ s : AggregatorState, m.validator ∈ s.participation (att_key m) →
      apply_attestation s m = s := by
    intro s hs
    unfold apply_attestation
    rw [if_pos hs]
  apply key
  by_cases hmem : m.validator ∈ st.participation (att_key m)
  · unfold apply_attestation
    rw [if_pos hmem]
    exact hmem
  · unfold apply_attestation
    rw [if_neg hmem]
    simp

/-- Claim C9: valid double-sign evidence (two differently-hashed blocks signed by
the same validator for the same slot) applied to a not-yet-slashed validator
transitions it to Slashed and zeroes its stake; applying the identical
evidence a second time succeeds (is not an error) and leaves status, stake
and score unchanged, so the penalty lands exactly once. -/
theorem double_sign_slash_once_idempotent (val : ValidatorRec) (v : Nat)
    (a b : SignedBlock) (hv : valid_double_sign v a b = true)
    (hns : val.status ≠ ValidatorStatus.Slashed) :
    ∃ val1, apply_double_sign_evidence val v a b = some val1 ∧
      val1.status = ValidatorStatus.Slashed ∧ val1.stake = 0 ∧
      apply_double_sign_evidence val1 v a b = some val1 := by
  refine ⟨{ status := ValidatorStatus.Slashed, stake := 0, score := 0 }, ?_, rfl, rfl, ?_⟩
  · unfold apply_double_sign_evidence
    rw [if_neg (by simp [hv]), if_neg hns]
  · unfold apply_double_sign_evidence
    rw [if_neg (by simp [hv]), if_pos rfl]

/-- Claim C9 witness: an Active validator with stake 1000 and two artifacts for
slot 7 with block hashes 100 and 200. -/
theorem double_sign_slash_once_idempotent_witness :
    valid_double_sign 1 ⟨1, 7, 100⟩ ⟨1, 7, 200⟩ = true ∧
      (⟨ValidatorStatus.Active, 1000, 5⟩ : ValidatorRec).status ≠ ValidatorStatus.Slashed ∧
      ∃ val1,
        apply_double_sign_evidence ⟨ValidatorStatus.Active, 1000, 5⟩ 1 ⟨1, 7, 100⟩ ⟨1, 7, 200⟩ =
          some val1 ∧
        val1.status = ValidatorStatus.Slashed ∧ val1.stake = 0 ∧
        apply_double_sign_evidence val1 1 ⟨1, 7, 100⟩ ⟨1, 7, 200⟩ = some val1 :=
  ⟨by decide, by decide,
   double_sign_slash_once_idempotent ⟨ValidatorStatus.Active, 1000, 5⟩ 1
     ⟨1, 7, 100⟩ ⟨1, 7, 200⟩ (by decide) (by decide)⟩

theorem gadget_step_voters (cfg : FinalityConfig) (st : GadgetState) (a : AttestationEvent) :
    (gadget_step cfg st a).voters =
      fun c => if c = a.target then insert a.validator (st.voters c) else st.voters c := rfl

theorem gadget_step_link (cfg : FinalityConfig) (st : GadgetState) (a : AttestationEvent) :
    (gadget_step cfg st a).link_voters =
      fun c d =>
        if c = a.source ∧ d = a.target then insert a.validator (st.link_voters c d)
        else st.link_voters c d := rfl

theorem gadget_step_seen (cfg : FinalityConfig) (st : GadgetState) (a : AttestationEvent) :
    (gadget_step cfg st a).seen = a.target :: a.source :: st.seen := rfl

theorem gadget_step_just (cfg : FinalityConfig) (st : GadgetState) (a : AttestationEvent)
    (c : Checkpoint) :
    (gadget_step cfg st a).just c =
      (st.just c ||
        decide (2 * totalActiveStake cfg ≤
          3 * attested_stake cfg (gadget_step cfg st a) c)) := rfl

theorem gadget_step_fin (cfg : FinalityConfig) (st : GadgetState) (a : AttestationEvent)
    (c : Checkpoint) :
    (gadget_step cfg st a).fin c =
      (st.fin c ||
        ((gadget_step cfg st a).just c &&
          (gadget_step cfg st a).seen.any fun d =>
            justifies cfg (gadget_step cfg st a) c d &&
            (gadget_step cfg st a).just d &&
            decide (d.epoch + 1 = c.epoch))) := rfl

theorem gadget_step_voters_subset (cfg : FinalityConfig) (st : GadgetState)
    (a : AttestationEvent) (c : Checkpoint) :
    st.voters c ⊆ (gadget_step cfg st a).voters c := by
  rw [gadget_step_voters]
  dsimp only
  by_cases h : c = a.target
  · rw [if_pos h]
    exact Finset.subset_insert _ _
  · rw [if_neg h]

theorem gadget_step_link_subset (cfg : FinalityConfig) (st : GadgetState)
    (a : AttestationEvent) (c d : Checkpoint) :
    st.link_voters c d ⊆ (gadget_step cfg st a).link_voters c d := by
  rw [gadget_step_link]
  dsimp only
  by_cases h : c = a.source ∧ d = a.target
  · rw [if_pos h]
    exact Finset.subset_insert _ _
  · rw [if_neg h]

theorem attested_stake_step_le (cfg : FinalityConfig) (st : GadgetState)
    (a : AttestationEvent) (c : Checkpoint) :
    attested_stake cfg st c ≤ attested_stake cfg (gadget_step cfg st a) c :=
  Finset.sum_le_sum_of_subset (gadget_step_voters_subset cfg st a c)

theorem link_stake_step_le (cfg : FinalityConfig) (st : GadgetState)
    (a : AttestationEvent) (c d : Checkpoint) :
    link_stake cfg st c d ≤ link_stake cfg (gadget_step cfg st a) c d :=
  Finset.sum_le_sum_of_subset (gadget_step_link_subset cfg st a c d)

theorem gadget_step_just_mono (cfg : FinalityConfig) (st : GadgetState)
    (a : AttestationEvent) (c : Checkpoint) (h : st.just c = true) :
    (gadget_step cfg st a).just c = true := by
  rw [gadget_step_just, h, Bool.true_or]

theorem justifies_iff (cfg : FinalityConfig) (st : GadgetState) (c d : Checkpoint) :
    justifies cfg st c d = true ↔
      2 * totalActiveStake cfg ≤ 3 * link_stake cfg st c d := by
  unfold justifies
  exact decide_eq_true_iff

theorem gadget_step_target_seen (cfg : FinalityConfig) (st : GadgetState)
    (a : AttestationEvent) (c d : Checkpoint)
    (hlink : ∀ c d, st.link_voters c d ≠ ∅ → d ∈ st.seen)
    (hne : (gadget_step cfg st a).link_voters c d ≠ ∅) :
    d ∈ (gadget_step cfg st a).seen := by
  rw [gadget_step_seen]
  rw [gadget_step_link] at hne
  dsimp only at hne
  by_cases hcd : c = a.source ∧ d = a.target
  · simp [hcd.2]
  · rw [if_neg hcd] at hne
    have := hlink c d hne
    simp [this]

theorem gadget_step_inv (cfg : FinalityConfig) (htot : 0 < totalActiveStake cfg)
    (st : GadgetState) (a : AttestationEvent) (hinv : GadgetInv cfg st) :
    GadgetInv cfg (gadget_step cfg st a) := by
  obtain ⟨hjust, hlink, hfin⟩ := hinv
  refine ⟨?_, ?_, ?_⟩
  · intro c
    constructor
    · intro h
      rw [gadget_step_just] at h
      rcases Bool.or_eq_true_iff.mp h with h0 | hdec
      · have hold := (hjust c).mp h0
        have hmono := attested_stake_step_le cfg st a c
        omega
      · exact of_decide_eq_true hdec
    · intro h
      rw [gadget_step_just]
      apply Bool.or_eq_true_iff.mpr
      right
      exact decide_eq_true h
  · intro c d hne
    exact gadget_step_target_seen cfg st a c d hlink hne
  · intro c
    rw [gadget_step_fin]
    constructor
    · intro h
      rcases Bool.or_eq_true_iff.mp h with h0 | hnew
      · obtain ⟨hjc, d, hjl, hjd, hadj⟩ := (hfin c).mp h0
        refine ⟨gadget_step_just_mono cfg st a c hjc, d, ?_,
          gadget_step_just_mono cfg st a d hjd, hadj⟩
        have hold := (justifies_iff cfg st c d).mp hjl
        have hmono := link_stake_step_le cfg st a c d
        exact (justifies_iff cfg (gadget_step cfg st a) c d).mpr (by omega)
      · rcases Bool.and_eq_true_iff.mp hnew with ⟨hjc1, hany⟩
        obtain ⟨d, _hdmem, hP⟩ := List.any_eq_true.mp hany
        rcases Bool.and_eq_true_iff.mp hP with ⟨hP1, hadj⟩
        rcases Bool.and_eq_true_iff.mp hP1 with ⟨hjl, hjd⟩
        exact ⟨hjc1, d, hjl, hjd, of_decide_eq_true hadj⟩
    · rintro ⟨hjc1, d, hjl, hjd, hadj⟩
      apply Bool.or_eq_true_iff.mpr
      right
      apply Bool.and_eq_true_iff.mpr
      refine ⟨hjc1, ?_⟩
      apply List.any_eq_true.mpr
      refine ⟨d, ?_, ?_⟩
      · have hth := (justifies_iff cfg (gadget_step cfg st a) c d).mp hjl
        have hpos : 0 < link_stake cfg (gadget_step cfg st a) c d := by omega
        have hne : (gadget_step cfg st a).link_voters c d ≠ ∅ := by
          intro hempty
          rw [link_stake, hempty] at hpos
          simp at hpos
        exact gadget_step_target_seen cfg st a c d hlink hne
      · rw [hjl, hjd, Bool.and_true, Bool.true_and]
        exact decide_eq_true hadj

theorem gadget_inv_init (cfg : FinalityConfig) (htot : 0 < totalActiveStake cfg) :
    GadgetInv cfg gadget_init := by
  refine ⟨?_, ?_, ?_⟩
  · intro c
    constructor
    · intro h
      simp [gadget_init] at h
    · intro h
      unfold attested_stake gadget_init at h
      simp at h
      omega
  · intro c d hne
    unfold gadget_init at hne
    simp at hne
  · intro c
    constructor
    · intro h
      simp [gadget_init] at h
    · rintro ⟨hjc, _⟩
      simp [gadget_init] at hjc

theorem gadget_inv_foldl (cfg : FinalityConfig) (htot : 0 < totalActiveStake cfg)
    (es : List AttestationEvent) :
    ∀ st, GadgetInv cfg st → GadgetInv cfg (es.foldl (gadget_step cfg) st) := by
  induction es with
  | nil => intro st h; exact h
  | cons a es ih =>
      intro st h
      exact ih (gadget_step cfg st a) (gadget_step_inv cfg htot st a h)

theorem gadget_run_inv (cfg : FinalityConfig) (htot : 0 < totalActiveStake cfg)
    (es : List AttestationEvent) : GadgetInv cfg (gadget_run cfg es) :=
  gadget_inv_foldl cfg htot es gadget_init (gadget_inv_init cfg htot)

theorem gadget_foldl_voters_subset (cfg : FinalityConfig) :
    ∀ es : List AttestationEvent, ∀ st : GadgetState,
      (∀ e ∈ es, e.validator ∈ cfg.activeSet) →
      (∀ c, st.voters c ⊆ cfg.activeSet) →
      ∀ c, (es.foldl (gadget_step cfg) st).voters c ⊆ cfg.activeSet := by
  intro es
  induction es with
  | nil => intro st _ hst c; exact hst c
  | cons a es ih =>
      intro st hes hst c
      apply ih (gadget_step cfg st a) (fun e he => hes e (List.mem_cons_of_mem a he))
      intro c1
      rw [gadget_step_voters]
      dsimp only
      by_cases h : c1 = a.target
      · rw [if_pos h]
        apply Finset.insert_subset (hes a (List.mem_cons_self a es)) (hst c1)
      · rw [if_neg h]
        exact hst c1

theorem gadget_run_voters_subset (cfg : FinalityConfig) (es : List AttestationEvent)
    (hval : ∀ e ∈ es, e.validator ∈ cfg.activeSet) (c : Checkpoint) :
    (gadget_run cfg es).voters c ⊆ cfg.activeSet := by
  apply gadget_foldl_voters_subset cfg es gadget_init hval
  intro c1
  show (∅ : Finset Nat) ⊆ cfg.activeSet
  exact Finset.empty_subset _

/-- Claim C2: over every reachable gadget state with positive total active stake,
a checkpoint carries the Justified mark exactly when its recorded attested
stake is at least 2/3 of the total active stake (the threshold is a
non-strict inequality against total active stake). -/
theorem justified_iff_two_thirds (cfg : FinalityConfig) (es : List AttestationEvent)
    (c : Checkpoint) (htot : 0 < totalActiveStake cfg) :
    (gadget_run cfg es).just c = true ↔
      2 * totalActiveStake cfg ≤ 3 * attested_stake cfg (gadget_run cfg es) c :=
  (gadget_run_inv cfg htot es).1 c

/-- Claim C2 witness: one validator of stake 1, the empty run, the epoch-0
checkpoint. -/
theorem justified_iff_two_thirds_witness :
    0 < totalActiveStake cfg1 ∧
      ((gadget_run cfg1 []).just cpD = true ↔
        2 * totalActiveStake cfg1 ≤ 3 * attested_stake cfg1 (gadget_run cfg1 []) cpD) :=
  ⟨by decide, justified_iff_two_thirds cfg1 [] cpD (by decide)⟩

/-- Claim C3: over every reachable gadget state with positive total active stake,
a checkpoint carries the Finalized mark exactly when it is justified and it
justifies a justified checkpoint of the immediately preceding epoch (the
chain rule); justifying only checkpoints of non-adjacent epochs does not
finalize, since the right side demands epoch adjacency exactly. -/
theorem finalized_iff_chain_rule (cfg : FinalityConfig) (es : List AttestationEvent)
    (c : Checkpoint) (htot : 0 < totalActiveStake cfg) :
    (gadget_run cfg es).fin c = true ↔
      ((gadget_run cfg es).just c = true ∧
        ∃ d, justifies cfg (gadget_run cfg es) c d = true ∧
          (gadget_run cfg es).just d = true ∧ d.epoch + 1 = c.epoch) :=
  (gadget_run_inv cfg htot es).2.2 c

/-- Claim C3 witness: the four-event run that finalizes the epoch-1 checkpoint. -/
theorem finalized_iff_chain_rule_witness :
    0 < totalActiveStake cfg1 ∧
      ((gadget_run cfg1 esW).fin cpA = true ↔
        ((gadget_run cfg1 esW).just cpA = true ∧
          ∃ d, justifies cfg1 (gadget_run cfg1 esW) cpA d = true ∧
            (gadget_run cfg1 esW).just d = true ∧ d.epoch + 1 = cpA.epoch)) :=
  ⟨by decide, finalized_iff_chain_rule cfg1 esW cpA (by decide)⟩

/-- Claim C1: safety of the finality gadget.  For every run whose attestations
all come from the active validator set, if two conflicting checkpoints both
carry the Finalized mark then the stake that attested to both is at least
1/3 of the total active stake; contrapositively, while the equivocating
(Byzantine) stake is below 1/3 of total stake, no two conflicting
checkpoints are both finalized. -/
theorem finality_safety_conflicting_finalized (cfg : FinalityConfig)
    (es : List AttestationEvent) (A B : Checkpoint)
    (htot : 0 < totalActiveStake cfg)
    (hval : ∀ e ∈ es, e.validator ∈ cfg.activeSet)
    (hAB : A ≠ B)
    (hA : (gadget_run cfg es).fin A = true)
    (hB : (gadget_run cfg es).fin B = true) :
    totalActiveStake cfg ≤
      3 * ∑ v ∈ (gadget_run cfg es).voters A ∩ (gadget_run cfg es).voters B,
        cfg.stake v := by
  obtain ⟨hjust, _, hfin⟩ := gadget_run_inv cfg htot es
  have hjA : (gadget_run cfg es).just A = true := ((hfin A).mp hA).1
  have hjB : (gadget_run cfg es).just B = true := ((hfin B).mp hB).1
  have hthA := (hjust A).mp hjA
  have hthB := (hjust B).mp hjB
  have hsubA := gadget_run_voters_subset cfg es hval A
  have hsubB := gadget_run_voters_subset cfg es hval B
  have hU : ∑ v ∈ (gadget_run cfg es).voters A ∪ (gadget_run cfg es).voters B,
      cfg.stake v ≤ totalActiveStake cfg :=
    Finset.sum_le_sum_of_subset (Finset.union_subset hsubA hsubB)
  have hui :
      ∑ v ∈ (gadget_run cfg es).voters A ∪ (gadget_run cfg es).voters B, cfg.stake v +
        ∑ v ∈ (gadget_run cfg es).voters A ∩ (gadget_run cfg es).voters B, cfg.stake v =
      ∑ v ∈ (gadget_run cfg es).voters A, cfg.stake v +
        ∑ v ∈ (gadget_run cfg es).voters B, cfg.stake v :=
    Finset.sum_union_inter
  unfold attested_stake at hthA hthB
  omega

/-- Claim C1 witness: the four-event run finalizes the conflicting epoch-1
checkpoints cpA and cpB, and the single validator (the whole stake)
attested to both. -/
theorem finality_safety_conflicting_finalized_witness :
    0 < totalActiveStake cfg1 ∧
      (∀ e ∈ esW, e.validator ∈ cfg1.activeSet) ∧
      cpA ≠ cpB ∧
      (gadget_run cfg1 esW).fin cpA = true ∧
      (gadget_run cfg1 esW).fin cpB = true ∧
      totalActiveStake cfg1 ≤
        3 * ∑ v ∈ (gadget_run cfg1 esW).voters cpA ∩ (gadget_run cfg1 esW).voters cpB,
          cfg1.stake v :=
  ⟨by decide, by decide, by decide, by decide, by decide,
   finality_safety_conflicting_finalized cfg1 esW cpA cpB (by decide) (by decide)
     (by decide) (by decide) (by decide)⟩
